import Mathlib

/-!
Verification of the rotated-widget geometry engine (balQt/tools.py and the
anchor-edge selection of balQt/rotated_widget.py) against its specification.

The Python code computes with floating-point numbers; following the spec's data
model ("Angle: a real number of degrees"), the embedding works over `ℝ`:
Python's `%` on floats with a positive modulus is `a - m * ⌊a / m⌋`, and
`math.sin`/`math.cos`/`math.radians` are the real functions.
-/

open Real

noncomputable section
open Classical

/-- Python float modulus for a positive modulus `m`: `a % m = a - m * ⌊a / m⌋`
(the result carries the sign of the divisor). -/
def fmod (a m : ℝ) : ℝ := a - m * (⌊a / m⌋ : ℤ)

/-- Embedding of `normalize_angle(angle)` from tools.py: `angle % 360`. -/
def normalize_angle (a : ℝ) : ℝ := fmod a 360

/-- Embedding of `radians_angle(angle)` from tools.py with the default `normalize=True`:
`math.radians(normalize_angle(angle))`. -/
def radians_angle (a : ℝ) : ℝ := normalize_angle a * (π / 180)

/-- Embedding of `abs_sin(angle)` from tools.py: `abs(math.sin(angle))` (argument in radians). -/
def abs_sin (x : ℝ) : ℝ := |Real.sin x|

/-- Embedding of `abs_cos(angle)` from tools.py: `abs(math.cos(angle))` (argument in radians). -/
def abs_cos (x : ℝ) : ℝ := |Real.cos x|

/-- Embedding of `abs_sin_d(angle)` from tools.py: `abs_sin(radians_angle(angle))`. -/
def abs_sin_d (a : ℝ) : ℝ := abs_sin (radians_angle a)

/-- Embedding of `abs_cos_d(angle)` from tools.py: `abs_cos(radians_angle(angle))`. -/
def abs_cos_d (a : ℝ) : ℝ := abs_cos (radians_angle a)

/-- Embedding of `get_rotated_dimensions(width, height, angle)` from tools.py. -/
def get_rotated_dimensions (width height angle : ℝ) : ℝ × ℝ :=
  (width * abs_cos (radians_angle angle) + height * abs_sin (radians_angle angle),
   height * abs_cos (radians_angle angle) + width * abs_sin (radians_angle angle))

/-- The aspect-ratio value computed at the top of `get_original_dimensions`
(tools.py lines 154-161).  `inf w` is Python's `aspect_ratio = math.inf`
(only the width is usable; `w` is `current_width`); `val r h` is a finite
ratio `r` with `h` the value of `current_height` (which is always a real
number in this case). -/
inductive Aspect where
  | inf (w : ℝ)
  | val (r h : ℝ)

/-- The aspect-ratio dispatch of `get_original_dimensions`:
`current_width / current_height` when both are given and the height is nonzero,
`math.inf` when only the width is usable, `0` when only the height is given,
undefined (`none`) when neither is given. -/
def aspect_of (current_width current_height : Option ℝ) : Option Aspect :=
  match current_width, current_height with
  | some w, some h => if h ≠ 0 then some (Aspect.val (w / h) h) else some (Aspect.inf w)
  | some w, none => some (Aspect.inf w)
  | none, some h => some (Aspect.val 0 h)
  | none, none => none

/-- Embedding of `get_original_dimensions(rotated_width, rotated_height, angle, current_width,
current_height)` from tools.py.  The three regimes follow the source: right
angles (`angle % 90 == 0`, split on `angle % 180 == 0`), the 45°-family
(`cos(2*angle_rad) == 0`), and the general case; inside each regime the code
branches on `math.isinf(aspect_ratio)` (the `Aspect.inf` case), on
`aspect_ratio == 0` (the `r = 0` test), the general ratio, and no ratio. -/
def get_original_dimensions (rw' rh' angle : ℝ)
    (current_width current_height : Option ℝ) : ℝ × ℝ :=
  if fmod angle 90 = 0 then
    if fmod angle 180 = 0 then
      match aspect_of current_width current_height with
      | some (Aspect.inf w) => (w, rh')
      | some (Aspect.val r h) =>
          if r = 0 then (rw', h)
          else (min rw' (rh' * r), min rw' (rh' * r) / r)
      | none => (rw', rh')
    else
      match aspect_of current_width current_height with
      | some (Aspect.inf w) => (w, rw')
      | some (Aspect.val r h) =>
          if r = 0 then (rh', h)
          else (min rh' (rw' * r), min rh' (rw' * r) / r)
      | none => (rh', rw')
  else if Real.cos (2 * radians_angle angle) = 0 then
    match aspect_of current_width current_height with
    | some (Aspect.inf w) => (w, Real.sqrt 2 * min rw' rh' - w)
    | some (Aspect.val r h) =>
        if r = 0 then (Real.sqrt 2 * min rw' rh' - h, h)
        else (Real.sqrt 2 * min rw' rh' / (r + 1) * r, Real.sqrt 2 * min rw' rh' / (r + 1))
    | none => (Real.sqrt 2 * min rw' rh' / 2, Real.sqrt 2 * min rw' rh' / 2)
  else
    match aspect_of current_width current_height with
    | some (Aspect.inf w) =>
        (w, min ((rw' - w * abs_cos_d angle) / abs_sin_d angle)
                ((rh' - w * abs_sin_d angle) / abs_cos_d angle))
    | some (Aspect.val r h) =>
        if r = 0 then
          (min ((rw' - h * abs_sin_d angle) / abs_cos_d angle)
               ((rh' - h * abs_cos_d angle) / abs_sin_d angle), h)
        else
          (min (rw' / (r * abs_cos_d angle + abs_sin_d angle))
               (rh' / (r * abs_sin_d angle + abs_cos_d angle)) * r,
           min (rw' / (r * abs_cos_d angle + abs_sin_d angle))
               (rh' / (r * abs_sin_d angle + abs_cos_d angle)))
    | none =>
        (|(rw' * abs_cos_d angle - rh' * abs_sin_d angle) / Real.cos (2 * radians_angle angle)|,
         |rh' - |(rw' * abs_cos_d angle - rh' * abs_sin_d angle) /
             Real.cos (2 * radians_angle angle)| * abs_sin_d angle| / abs_cos_d angle)

/-- The `QuadrantOrAxis` enum from tools.py. -/
inductive QuadrantOrAxis where
  | POSITIVE_X_AXIS
  | POSITIVE_Y_AXIS
  | NEGATIVE_X_AXIS
  | NEGATIVE_Y_AXIS
  | QUADRANT_1
  | QUADRANT_2
  | QUADRANT_3
  | QUADRANT_4
deriving DecidableEq

/-- Embedding of `get_quadrant_or_axis(angle)` from tools.py. -/
def get_quadrant_or_axis (angle : ℝ) : QuadrantOrAxis :=
  if normalize_angle angle = 0 then QuadrantOrAxis.POSITIVE_X_AXIS
  else if normalize_angle angle = 90 then QuadrantOrAxis.POSITIVE_Y_AXIS
  else if normalize_angle angle = 180 then QuadrantOrAxis.NEGATIVE_X_AXIS
  else if normalize_angle angle = 270 then QuadrantOrAxis.NEGATIVE_Y_AXIS
  else if normalize_angle angle < 90 then QuadrantOrAxis.QUADRANT_1
  else if normalize_angle angle < 180 then QuadrantOrAxis.QUADRANT_2
  else if normalize_angle angle < 270 then QuadrantOrAxis.QUADRANT_3
  else QuadrantOrAxis.QUADRANT_4

/-- Whether a classification outcome is one of the four axis variants. -/
def is_axis : QuadrantOrAxis → Bool
  | QuadrantOrAxis.POSITIVE_X_AXIS => true
  | QuadrantOrAxis.POSITIVE_Y_AXIS => true
  | QuadrantOrAxis.NEGATIVE_X_AXIS => true
  | QuadrantOrAxis.NEGATIVE_Y_AXIS => true
  | _ => false

/-- Which container edges the quadrant/axis branch of
`RotatedWidget.resizeEvent` (rotated_widget.py lines 147-161) adjusts:
the first component is true when the branch calls `scene_rect.setLeft`,
the second when it calls `scene_rect.setTop`. -/
def anchor_shift : QuadrantOrAxis → Bool × Bool
  | QuadrantOrAxis.QUADRANT_1 => (true, false)
  | QuadrantOrAxis.QUADRANT_2 => (true, true)
  | QuadrantOrAxis.QUADRANT_3 => (true, true)
  | QuadrantOrAxis.QUADRANT_4 => (false, true)
  | QuadrantOrAxis.NEGATIVE_X_AXIS => (true, false)
  | QuadrantOrAxis.NEGATIVE_Y_AXIS => (false, true)
  | QuadrantOrAxis.POSITIVE_X_AXIS => (false, false)
  | QuadrantOrAxis.POSITIVE_Y_AXIS => (false, false)

end

/-- The `QSizePolicy.Policy` values appearing in `combine_size_policies`
(tools.py lines 22-30). -/
inductive Policy where
  | Fixed
  | Minimum
  | MinimumExpanding
  | Maximum
  | Preferred
  | Expanding
  | Ignored
deriving DecidableEq, Fintype

/-- The numeric value of each policy constant in the GUI toolkit the code runs
against (flags: GrowFlag = 1, ExpandFlag = 2, ShrinkFlag = 4, IgnoreFlag = 8):
Fixed = 0, Minimum = 1, MinimumExpanding = 3, Maximum = 4, Preferred = 5,
Expanding = 7, Ignored = 13.  The `|` and `<=` in `combine_size_policies`
operate on these numbers. -/
def Policy.toVal : Policy → ℕ
  | Policy.Fixed => 0
  | Policy.Minimum => 1
  | Policy.MinimumExpanding => 3
  | Policy.Maximum => 4
  | Policy.Preferred => 5
  | Policy.Expanding => 7
  | Policy.Ignored => 13

/-- The `policy_order` list of `combine_size_policies` (tools.py lines 22-30),
"from least to most flexible". -/
def policy_order : List Policy :=
  [Policy.Fixed, Policy.Minimum, Policy.MinimumExpanding, Policy.Maximum,
   Policy.Preferred, Policy.Expanding, Policy.Ignored]

/-- Embedding of `combine_size_policies(horizontal_policy, vertical_policy)` from tools.py:
bitwise OR of the two values, then the first policy in `policy_order` whose
value is at least the OR, falling back to `Ignored`. -/
def combine_size_policies (horizontal_policy vertical_policy : Policy) : Policy :=
  match policy_order.find? (fun p =>
      Nat.lor horizontal_policy.toVal vertical_policy.toVal ≤ p.toVal) with
  | some p => p
  | none => Policy.Ignored

/-- Position of a policy in the total flexibility order `policy_order`
(Fixed least flexible, Ignored most flexible). -/
def flex_index : Policy → ℕ
  | Policy.Fixed => 0
  | Policy.Minimum => 1
  | Policy.MinimumExpanding => 2
  | Policy.Maximum => 3
  | Policy.Preferred => 4
  | Policy.Expanding => 5
  | Policy.Ignored => 6

/-! ### Helper lemmas -/

theorem fmod_eq_self {a m : ℝ} (hm : 0 < m) (h0 : 0 ≤ a) (h1 : a < m) : fmod a m = a := by
  have : ⌊a / m⌋ = 0 := by
    rw [Int.floor_eq_zero_iff]
    constructor
    · positivity
    · rw [div_lt_one hm]; exact h1
  simp [fmod, this]

theorem normalize_angle_eq_self {a : ℝ} (h0 : 0 ≤ a) (h1 : a < 360) :
    normalize_angle a = a :=
  fmod_eq_self (by norm_num) h0 h1

/-- The normalized angle differs from the raw angle by an integer multiple of
360°, so after conversion to radians sine and cosine are unchanged. -/
theorem cos_radians_angle (a : ℝ) :
    Real.cos (radians_angle a) = Real.cos (a * (π / 180)) := by
  have h : a * (π / 180) = radians_angle a + (⌊a / 360⌋ : ℤ) * (2 * π) := by
    simp only [radians_angle, normalize_angle, fmod]
    ring
  rw [h, Real.cos_add_int_mul_two_pi]

theorem sin_radians_angle (a : ℝ) :
    Real.sin (radians_angle a) = Real.sin (a * (π / 180)) := by
  have h : a * (π / 180) = radians_angle a + (⌊a / 360⌋ : ℤ) * (2 * π) := by
    simp only [radians_angle, normalize_angle, fmod]
    ring
  rw [h, Real.sin_add_int_mul_two_pi]

theorem cos_two_radians_angle (a : ℝ) :
    Real.cos (2 * radians_angle a) = Real.cos (2 * (a * (π / 180))) := by
  have h : 2 * (a * (π / 180)) = 2 * radians_angle a + (2 * ⌊a / 360⌋ : ℤ) * (2 * π) := by
    push_cast
    simp only [radians_angle, normalize_angle, fmod]
    ring
  rw [h, Real.cos_add_int_mul_two_pi]

/-- Characterization: `fmod a m = 0` exactly when `a` is an integer multiple of `m`. -/
theorem fmod_eq_zero_iff {a m : ℝ} (hm : m ≠ 0) :
    fmod a m = 0 ↔ ∃ k : ℤ, a = m * k := by
  constructor
  · intro h
    exact ⟨⌊a / m⌋, by simpa [fmod, sub_eq_zero] using h⟩
  · rintro ⟨k, rfl⟩
    have : (m * k) / m = (k : ℝ) := by field_simp
    simp [fmod, this, Int.floor_intCast]

theorem abs_cos_sq_add_abs_sin_sq (x : ℝ) : abs_cos x ^ 2 + abs_sin x ^ 2 = 1 := by
  simp only [abs_cos, abs_sin, sq_abs]
  exact Real.cos_sq_add_sin_sq x

/-! ### Claim theorems -/

/-- C7: `normalize_angle` is `angle mod 360`: the result is always in
`[0, 360)`, it is invariant under adding any integer multiple of 360, and
`normalize(-90) = 270`. -/
theorem normalize_angle_mod_360 :
    (∀ a : ℝ, normalize_angle a = a - 360 * (⌊a / 360⌋ : ℤ) ∧
      0 ≤ normalize_angle a ∧ normalize_angle a < 360) ∧
    (∀ (a : ℝ) (k : ℤ), normalize_angle (a + 360 * k) = normalize_angle a) ∧
    normalize_angle (-90) = 270 := by
  refine ⟨fun a => ⟨rfl, ?_, ?_⟩, fun a k => ?_, ?_⟩
  · have h1 : (⌊a / 360⌋ : ℝ) ≤ a / 360 := Int.floor_le _
    rw [le_div_iff (by norm_num : (0:ℝ) < 360)] at h1
    simp only [normalize_angle, fmod]
    linarith
  · have h2 : a / 360 < (⌊a / 360⌋ : ℝ) + 1 := Int.lt_floor_add_one _
    rw [div_lt_iff (by norm_num : (0:ℝ) < 360)] at h2
    simp only [normalize_angle, fmod]
    linarith
  · have hdiv : (a + 360 * (k : ℝ)) / 360 = a / 360 + (k : ℝ) := by ring
    simp only [normalize_angle, fmod, hdiv, Int.floor_add_int]
    push_cast
    ring
  · have hfl : ⌊(-90 : ℝ) / 360⌋ = -1 := by
      rw [Int.floor_eq_iff]
      norm_num
    simp only [normalize_angle, fmod, hfl]
    norm_num

theorem radians_angle_zero : radians_angle 0 = 0 := by
  rw [radians_angle, normalize_angle_eq_self le_rfl (by norm_num)]
  ring

theorem radians_angle_ninety : radians_angle 90 = π / 2 := by
  rw [radians_angle, normalize_angle_eq_self (by norm_num) (by norm_num)]
  ring

/-- C1: the forward mapping computes
`(width*|cos θ| + height*|sin θ|, height*|cos θ| + width*|sin θ|)` with `θ`
the normalized angle in radians, and in particular maps `(100, 50)` to itself
at 0° and to `(50, 100)` at 90°. -/
theorem rotated_dimensions_formula :
    (∀ width height angle : ℝ,
      get_rotated_dimensions width height angle =
        (width * |Real.cos (radians_angle angle)| + height * |Real.sin (radians_angle angle)|,
         height * |Real.cos (radians_angle angle)| + width * |Real.sin (radians_angle angle)|)) ∧
    get_rotated_dimensions 100 50 0 = (100, 50) ∧
    get_rotated_dimensions 100 50 90 = (50, 100) := by
  refine ⟨fun w h a => rfl, ?_, ?_⟩
  · simp [get_rotated_dimensions, radians_angle_zero, abs_cos, abs_sin]
  · simp [get_rotated_dimensions, radians_angle_ninety, abs_cos, abs_sin]

/-- C6: `combine_size_policies` is commutative and idempotent, maps
`(Fixed, Expanding)` to `Expanding`, and its result is always
flexible-or-equal to both inputs in the total order
`[Fixed, Minimum, MinimumExpanding, Maximum, Preferred, Expanding, Ignored]`. -/
theorem combine_size_policies_laws :
    (∀ p q : Policy, combine_size_policies p q = combine_size_policies q p) ∧
    (∀ p : Policy, combine_size_policies p p = p) ∧
    combine_size_policies Policy.Fixed Policy.Expanding = Policy.Expanding ∧
    (∀ p q : Policy, flex_index p ≤ flex_index (combine_size_policies p q) ∧
      flex_index q ≤ flex_index (combine_size_policies p q)) := by
  decide

/-- C10: passing a known width together with a known height of exactly 0 makes
the aspect ratio infinite, so the call behaves exactly as if the height
argument had been omitted, and the returned width is the given known width. -/
theorem original_dimensions_zero_height_ignored :
    ∀ rw' rh' angle w : ℝ,
      get_original_dimensions rw' rh' angle (some w) (some 0) =
        get_original_dimensions rw' rh' angle (some w) none ∧
      (get_original_dimensions rw' rh' angle (some w) (some 0)).1 = w := by
  intro rw' rh' angle w
  have ha : aspect_of (some w) (some 0) = some (Aspect.inf w) := by
    simp [aspect_of]
  have hb : aspect_of (some w) none = some (Aspect.inf w) := rfl
  refine ⟨?_, ?_⟩
  · simp only [get_original_dimensions, ha, hb]
  · simp only [get_original_dimensions, ha]
    split_ifs <;> rfl

/-- C9 counterexample: the anchor-edge mapping is not injective on the 8
classification outcomes — quadrants 2 and 3 shift the same pair of edges
(left and top), so the outcomes do not map to *distinct* combinations. -/
theorem anchor_shift_not_injective :
    anchor_shift QuadrantOrAxis.QUADRANT_2 = anchor_shift QuadrantOrAxis.QUADRANT_3 ∧
    QuadrantOrAxis.QUADRANT_2 ≠ QuadrantOrAxis.QUADRANT_3 := by
  decide

/-- C9 (amended): each classification outcome maps to a determined combination
of {shift left edge, shift top edge, shift neither}; angle 135° classifies as
Quadrant 2 and shifts the container's left and top edges.  The full table:
Q1 and the negative X axis shift left only, Q2 and Q3 shift left and top,
Q4 and the negative Y axis shift top only, the positive axes shift neither. -/
theorem anchor_shift_table :
    get_quadrant_or_axis 135 = QuadrantOrAxis.QUADRANT_2 ∧
    anchor_shift QuadrantOrAxis.QUADRANT_2 = (true, true) ∧
    anchor_shift QuadrantOrAxis.QUADRANT_3 = (true, true) ∧
    anchor_shift QuadrantOrAxis.QUADRANT_1 = (true, false) ∧
    anchor_shift QuadrantOrAxis.NEGATIVE_X_AXIS = (true, false) ∧
    anchor_shift QuadrantOrAxis.QUADRANT_4 = (false, true) ∧
    anchor_shift QuadrantOrAxis.NEGATIVE_Y_AXIS = (false, true) ∧
    anchor_shift QuadrantOrAxis.POSITIVE_X_AXIS = (false, false) ∧
    anchor_shift QuadrantOrAxis.POSITIVE_Y_AXIS = (false, false) := by
  have hn : normalize_angle 135 = 135 :=
    normalize_angle_eq_self (by norm_num) (by norm_num)
  refine ⟨?_, rfl, rfl, rfl, rfl, rfl, rfl, rfl, rfl⟩
  rw [get_quadrant_or_axis, hn]
  norm_num

/-- C8: classification is total over the 8-variant type, and an axis variant is
returned exactly when the normalized angle is 0, 90, 180, or 270. -/
theorem classify_total_and_axis_iff :
    (∀ a : ℝ, get_quadrant_or_axis a = QuadrantOrAxis.POSITIVE_X_AXIS ∨
      get_quadrant_or_axis a = QuadrantOrAxis.POSITIVE_Y_AXIS ∨
      get_quadrant_or_axis a = QuadrantOrAxis.NEGATIVE_X_AXIS ∨
      get_quadrant_or_axis a = QuadrantOrAxis.NEGATIVE_Y_AXIS ∨
      get_quadrant_or_axis a = QuadrantOrAxis.QUADRANT_1 ∨
      get_quadrant_or_axis a = QuadrantOrAxis.QUADRANT_2 ∨
      get_quadrant_or_axis a = QuadrantOrAxis.QUADRANT_3 ∨
      get_quadrant_or_axis a = QuadrantOrAxis.QUADRANT_4) ∧
    (∀ a : ℝ, is_axis (get_quadrant_or_axis a) = true ↔
      (normalize_angle a = 0 ∨ normalize_angle a = 90 ∨
       normalize_angle a = 180 ∨ normalize_angle a = 270)) := by
  constructor
  · intro a
    unfold get_quadrant_or_axis
    split_ifs <;> tauto
  · intro a
    unfold get_quadrant_or_axis
    split_ifs <;> simp_all [is_axis]

/-- C5 counterexample: called with a negative width, the forward mapping
returns the silently computed value `(-100, 50)` — a total function result,
not an error — so invalid inputs are not reported to the caller. -/
theorem rotated_dimensions_negative_accepted :
    get_rotated_dimensions (-100) 50 0 = (-100, 50) ∧
    (get_rotated_dimensions (-100) 50 0).1 < 0 := by
  constructor
  · simp [get_rotated_dimensions, radians_angle_zero, abs_cos, abs_sin]
  · simp [get_rotated_dimensions, radians_angle_zero, abs_cos, abs_sin]

/-- C5 (amended): the engine performs no input validation — a negative
dimension flows through both the forward and the inverse mapping unchanged
(no exception, no clamping); in particular a negative size is never clamped
to zero. -/
theorem dimensions_no_validation (w h : ℝ) (hw : w < 0) :
    get_rotated_dimensions w h 0 = (w, h) ∧
    (get_rotated_dimensions w h 0).1 < 0 ∧
    get_original_dimensions w h 0 none none = (w, h) := by
  have h90 : fmod (0:ℝ) 90 = 0 := by simp [fmod]
  have h180 : fmod (0:ℝ) 180 = 0 := by simp [fmod]
  have hr : get_rotated_dimensions w h 0 = (w, h) := by
    simp [get_rotated_dimensions, radians_angle_zero, abs_cos, abs_sin]
  refine ⟨hr, by rw [hr]; exact hw, ?_⟩
  simp [get_original_dimensions, h90, h180, aspect_of]

theorem dimensions_no_validation_witness :
    (-100 : ℝ) < 0 ∧
    (get_rotated_dimensions (-100) 50 0 = (-100, 50) ∧
      (get_rotated_dimensions (-100) 50 0).1 < 0 ∧
      get_original_dimensions (-100) 50 0 none none = (-100, 50)) :=
  ⟨by norm_num, dimensions_no_validation (-100) 50 (by norm_num)⟩

/-! ### Trigonometric facts at the branch angles -/

theorem eq_one_of_sq_eq_one {c : ℝ} (h : c ^ 2 = 1) (hc : 0 ≤ c) : c = 1 := by
  have h2 : (c - 1) * (c + 1) = 0 := by linear_combination h
  rcases mul_eq_zero.mp h2 with h3 | h3
  · linarith
  · linarith

theorem eq_of_sq_eq_sq_nonneg {x y : ℝ} (hx : 0 ≤ x) (hy : 0 ≤ y)
    (h : x ^ 2 = y ^ 2) : x = y := by
  have h2 : (x - y) * (x + y) = 0 := by linear_combination h
  rcases mul_eq_zero.mp h2 with h3 | h3
  · linarith
  · linarith

theorem trig_at_180 {a : ℝ} (h : fmod a 180 = 0) :
    abs_cos (radians_angle a) = 1 ∧ abs_sin (radians_angle a) = 0 := by
  obtain ⟨k, hk⟩ := (fmod_eq_zero_iff (by norm_num : (180:ℝ) ≠ 0)).mp h
  have hsin : Real.sin (radians_angle a) = 0 := by
    rw [sin_radians_angle, hk]
    have he : 180 * (k:ℝ) * (π / 180) = (k:ℝ) * π := by ring
    rw [he, Real.sin_int_mul_pi]
  have hs : abs_sin (radians_angle a) = 0 := by rw [abs_sin, hsin, abs_zero]
  refine ⟨?_, hs⟩
  have hcs := abs_cos_sq_add_abs_sin_sq (radians_angle a)
  rw [hs] at hcs
  norm_num at hcs
  rcases hcs with hcs | hcs
  · exact hcs
  · have hnn : (0:ℝ) ≤ abs_cos (radians_angle a) := abs_nonneg _
    linarith

theorem trig_at_90 {a : ℝ} (h90 : fmod a 90 = 0) (h180 : ¬ fmod a 180 = 0) :
    abs_cos (radians_angle a) = 0 ∧ abs_sin (radians_angle a) = 1 := by
  obtain ⟨k, hk⟩ := (fmod_eq_zero_iff (by norm_num : (90:ℝ) ≠ 0)).mp h90
  rcases Int.even_or_odd k with ⟨m, hm⟩ | ⟨m, hm⟩
  · exact absurd ((fmod_eq_zero_iff (by norm_num : (180:ℝ) ≠ 0)).mpr
      ⟨m, by rw [hk, hm]; push_cast; ring⟩) h180
  · have hcos : Real.cos (radians_angle a) = 0 := by
      rw [cos_radians_angle, hk, hm]
      have he : 90 * ((2 * m + 1 : ℤ) : ℝ) * (π / 180) = (m : ℝ) * π + π / 2 := by
        push_cast; ring
      rw [he, Real.cos_add, Real.cos_pi_div_two, Real.sin_int_mul_pi]
      ring
    have hc : abs_cos (radians_angle a) = 0 := by rw [abs_cos, hcos, abs_zero]
    refine ⟨hc, ?_⟩
    have hcs := abs_cos_sq_add_abs_sin_sq (radians_angle a)
    rw [hc] at hcs
    norm_num at hcs
    rcases hcs with hcs | hcs
    · exact hcs
    · have hnn : (0:ℝ) ≤ abs_sin (radians_angle a) := abs_nonneg _
      linarith

theorem trig_at_45 {a : ℝ} (h : Real.cos (2 * radians_angle a) = 0) :
    abs_sin (radians_angle a) = abs_cos (radians_angle a) ∧
    Real.sqrt 2 * abs_cos (radians_angle a) = 1 := by
  have h2 := Real.cos_two_mul (radians_angle a)
  rw [h] at h2
  have hcsq : Real.cos (radians_angle a) ^ 2 = 1 / 2 := by linarith
  have hc2 : abs_cos (radians_angle a) ^ 2 = 1 / 2 := by
    rw [abs_cos, sq_abs]; exact hcsq
  have hcs := abs_cos_sq_add_abs_sin_sq (radians_angle a)
  have hs2 : abs_sin (radians_angle a) ^ 2 = 1 / 2 := by linarith
  constructor
  · exact eq_of_sq_eq_sq_nonneg (abs_nonneg _) (abs_nonneg _) (by rw [hs2, hc2])
  · apply eq_one_of_sq_eq_one
    · rw [mul_pow, Real.sq_sqrt (by norm_num : (0:ℝ) ≤ 2), hc2]
      norm_num
    · exact mul_nonneg (Real.sqrt_nonneg 2) (abs_nonneg _)

theorem pos_combo {w h c s : ℝ} (hw : 0 < w) (hh : 0 < h) (hc : 0 ≤ c) (hs : 0 ≤ s)
    (hcs : c ^ 2 + s ^ 2 = 1) : 0 < w * c + h * s := by
  rcases eq_or_lt_of_le hc with hc0 | hcpos
  · have hs1 : 0 < s := by nlinarith
    nlinarith [mul_nonneg hw.le hc, mul_pos hh hs1]
  · nlinarith [mul_pos hw hcpos, mul_nonneg hh.le hs]

/-! ### Round-trip algebra, one lemma per branch of the inverse mapping -/

theorem rt_axis0_branch {w h c s : ℝ} (hw : 0 < w) (hh : 0 < h)
    (hc1 : c = 1) (hs1 : s = 0) :
    (min (w * c + h * s) ((h * c + w * s) * (w / h)),
     min (w * c + h * s) ((h * c + w * s) * (w / h)) / (w / h)) = (w, h) := by
  subst hc1; subst hs1
  simp only [mul_one, mul_zero, add_zero]
  have hmin : h * (w / h) = w := by
    rw [← mul_div_assoc]; exact mul_div_cancel_left₀ _ (ne_of_gt hh)
  rw [hmin, min_self]
  have hdd : w / (w / h) = h := by
    rw [div_div_eq_mul_div, mul_div_cancel_left₀ _ (ne_of_gt hw)]
  rw [hdd]

theorem rt_axis90_branch {w h c s : ℝ} (hw : 0 < w) (hh : 0 < h)
    (hc0 : c = 0) (hs1 : s = 1) :
    (min (h * c + w * s) ((w * c + h * s) * (w / h)),
     min (h * c + w * s) ((w * c + h * s) * (w / h)) / (w / h)) = (w, h) := by
  subst hc0; subst hs1
  simp only [mul_one, mul_zero, zero_add]
  have hmin : h * (w / h) = w := by
    rw [← mul_div_assoc]; exact mul_div_cancel_left₀ _ (ne_of_gt hh)
  rw [hmin, min_self]
  have hdd : w / (w / h) = h := by
    rw [div_div_eq_mul_div, mul_div_cancel_left₀ _ (ne_of_gt hw)]
  rw [hdd]

theorem rt_45_branch {w h c s : ℝ} (hw : 0 < w) (hh : 0 < h)
    (hsc : s = c) (hsqrt : Real.sqrt 2 * c = 1) :
    (Real.sqrt 2 * min (w * c + h * s) (h * c + w * s) / (w / h + 1) * (w / h),
     Real.sqrt 2 * min (w * c + h * s) (h * c + w * s) / (w / h + 1)) = (w, h) := by
  rw [hsc]
  have hmm : min (w * c + h * c) (h * c + w * c) = w * c + h * c :=
    min_eq_left (le_of_eq (by ring))
  rw [hmm]
  have hkey : Real.sqrt 2 * (w * c + h * c) / (w / h + 1) = h := by
    have hwh : w / h + 1 = (w + h) / h := by
      rw [add_div, div_self (ne_of_gt hh)]
    have hnum : Real.sqrt 2 * (w * c + h * c) = w + h := by
      linear_combination (w + h) * hsqrt
    rw [hwh, hnum, div_div_eq_mul_div,
      mul_div_cancel_left₀ _ (ne_of_gt (by linarith : (0:ℝ) < w + h))]
  rw [hkey]
  have hmin : h * (w / h) = w := by
    rw [← mul_div_assoc]; exact mul_div_cancel_left₀ _ (ne_of_gt hh)
  rw [hmin]

theorem rt_ratio_branch {w h c s : ℝ} (_hw : 0 < w) (hh : 0 < h)
    (hA : 0 < w * c + h * s) (hB : 0 < h * c + w * s) :
    (min ((w * c + h * s) / (w / h * c + s)) ((h * c + w * s) / (w / h * s + c)) * (w / h),
     min ((w * c + h * s) / (w / h * c + s)) ((h * c + w * s) / (w / h * s + c))) = (w, h) := by
  have hh' : h ≠ 0 := ne_of_gt hh
  have e1 : (w * c + h * s) / (w / h * c + s) = h := by
    have hd : w / h * c + s = (w * c + h * s) / h := by
      rw [add_div, mul_div_cancel_left₀ _ hh', div_mul_eq_mul_div]
    rw [hd, div_div_eq_mul_div, mul_div_cancel_left₀ _ (ne_of_gt hA)]
  have e2 : (h * c + w * s) / (w / h * s + c) = h := by
    have hd : w / h * s + c = (h * c + w * s) / h := by
      rw [add_div, mul_div_cancel_left₀ _ hh', div_mul_eq_mul_div]
      exact add_comm _ _
    rw [hd, div_div_eq_mul_div, mul_div_cancel_left₀ _ (ne_of_gt hB)]
  rw [e1, e2, min_self]
  have hmin : h * (w / h) = w := by
    rw [← mul_div_assoc]; exact mul_div_cancel_left₀ _ hh'
  rw [hmin]

/-- C2: round-trip law — for every positive width and height and every angle,
feeding the forward mapping's output back through the inverse mapping, with the
original width and height as the known-dimension (aspect-ratio) arguments,
reproduces the original dimensions exactly (hence within any floating-point
tolerance). -/
theorem original_after_rotated_round_trip (w h a : ℝ) (hw : 0 < w) (hh : 0 < h) :
    get_original_dimensions (get_rotated_dimensions w h a).1 (get_rotated_dimensions w h a).2
      a (some w) (some h) = (w, h) := by
  have hh' : h ≠ 0 := ne_of_gt hh
  have hr : 0 < w / h := div_pos hw hh
  have hr0 : ¬ (w / h = 0) := ne_of_gt hr
  have haspect : aspect_of (some w) (some h) = some (Aspect.val (w / h) h) := by
    simp [aspect_of, hh']
  have hc0 : (0:ℝ) ≤ abs_cos (radians_angle a) := abs_nonneg _
  have hs0 : (0:ℝ) ≤ abs_sin (radians_angle a) := abs_nonneg _
  have hcs := abs_cos_sq_add_abs_sin_sq (radians_angle a)
  have hA : 0 < w * abs_cos (radians_angle a) + h * abs_sin (radians_angle a) :=
    pos_combo hw hh hc0 hs0 hcs
  have hB : 0 < h * abs_cos (radians_angle a) + w * abs_sin (radians_angle a) :=
    pos_combo hh hw hc0 hs0 hcs
  simp only [get_rotated_dimensions, get_original_dimensions, haspect,
    abs_cos_d, abs_sin_d]
  by_cases h90 : fmod a 90 = 0
  · by_cases h180 : fmod a 180 = 0
    · rw [if_pos h90, if_pos h180, if_neg hr0]
      obtain ⟨hc1, hs1⟩ := trig_at_180 h180
      exact rt_axis0_branch hw hh hc1 hs1
    · rw [if_pos h90, if_neg h180, if_neg hr0]
      obtain ⟨hcc, hss⟩ := trig_at_90 h90 h180
      exact rt_axis90_branch hw hh hcc hss
  · by_cases h45 : Real.cos (2 * radians_angle a) = 0
    · rw [if_neg h90, if_pos h45, if_neg hr0]
      obtain ⟨hsc, hsqrt⟩ := trig_at_45 h45
      exact rt_45_branch hw hh hsc hsqrt
    · rw [if_neg h90, if_neg h45, if_neg hr0]
      exact rt_ratio_branch hw hh hA hB

theorem original_after_rotated_round_trip_witness :
    (0:ℝ) < 100 ∧ (0:ℝ) < 50 ∧
    get_original_dimensions (get_rotated_dimensions 100 50 37).1
      (get_rotated_dimensions 100 50 37).2 37 (some 100) (some 50) = (100, 50) ∧
    |(get_original_dimensions (get_rotated_dimensions 100 50 37).1
      (get_rotated_dimensions 100 50 37).2 37 (some 100) (some 50)).1 - 100| ≤ 1 / 1000000 := by
  have key := original_after_rotated_round_trip 100 50 37 (by norm_num) (by norm_num)
  refine ⟨by norm_num, by norm_num, key, ?_⟩
  rw [key]
  norm_num

/-! ### Non-negativity of the inverse mapping -/

theorem nonneg_pair_axis {x y r : ℝ} (hx : 0 ≤ x) (hy : 0 ≤ y) (hr : 0 < r) :
    0 ≤ (min x (y * r), min x (y * r) / r).1 ∧
    0 ≤ (min x (y * r), min x (y * r) / r).2 :=
  ⟨le_min hx (mul_nonneg hy hr.le), div_nonneg (le_min hx (mul_nonneg hy hr.le)) hr.le⟩

theorem nonneg_pair_45 {x y r : ℝ} (hx : 0 ≤ x) (hy : 0 ≤ y) (hr : 0 < r) :
    0 ≤ (Real.sqrt 2 * min x y / (r + 1) * r, Real.sqrt 2 * min x y / (r + 1)).1 ∧
    0 ≤ (Real.sqrt 2 * min x y / (r + 1) * r, Real.sqrt 2 * min x y / (r + 1)).2 := by
  have hb : 0 ≤ Real.sqrt 2 * min x y / (r + 1) :=
    div_nonneg (mul_nonneg (Real.sqrt_nonneg 2) (le_min hx hy)) (by linarith)
  exact ⟨mul_nonneg hb hr.le, hb⟩

theorem nonneg_pair_general {x y r c s : ℝ} (hx : 0 ≤ x) (hy : 0 ≤ y) (hr : 0 < r)
    (hc : 0 ≤ c) (hs : 0 ≤ s) :
    0 ≤ (min (x / (r * c + s)) (y / (r * s + c)) * r,
          min (x / (r * c + s)) (y / (r * s + c))).1 ∧
    0 ≤ (min (x / (r * c + s)) (y / (r * s + c)) * r,
          min (x / (r * c + s)) (y / (r * s + c))).2 := by
  have hb : 0 ≤ min (x / (r * c + s)) (y / (r * s + c)) :=
    le_min (div_nonneg hx (add_nonneg (mul_nonneg hr.le hc) hs))
           (div_nonneg hy (add_nonneg (mul_nonneg hr.le hs) hc))
  exact ⟨mul_nonneg hb hr.le, hb⟩

/-- C4 counterexample: with non-negative rotated extents (10, 10), angle 60°,
and a non-negative known width of 100 (height omitted), the inverse mapping
returns a *negative* height, refuting the claim that both returned components
are non-negative in every branch. -/
theorem original_dimensions_negative_height :
    (get_original_dimensions 10 10 60 (some 100) none).2 < 0 := by
  have hrad : radians_angle 60 = π / 3 := by
    rw [radians_angle, normalize_angle_eq_self (by norm_num) (by norm_num)]
    ring
  have h90 : ¬ fmod (60:ℝ) 90 = 0 := by
    rw [fmod_eq_self (by norm_num) (by norm_num) (by norm_num)]
    norm_num
  have h45 : ¬ Real.cos (2 * radians_angle 60) = 0 := by
    rw [hrad]
    have he : 2 * (π / 3) = π - π / 3 := by ring
    rw [he, Real.cos_pi_sub, Real.cos_pi_div_three]
    norm_num
  have hc : abs_cos_d 60 = 1 / 2 := by
    rw [abs_cos_d, abs_cos, hrad, Real.cos_pi_div_three]
    norm_num
  have hs : abs_sin_d 60 = Real.sqrt 3 / 2 := by
    rw [abs_sin_d, abs_sin, hrad, Real.sin_pi_div_three]
    exact abs_of_nonneg (by positivity)
  have h3 : (1:ℝ) ≤ Real.sqrt 3 := by
    rw [show (1:ℝ) = Real.sqrt 1 from Real.sqrt_one.symm]
    exact Real.sqrt_le_sqrt (by norm_num)
  simp only [get_original_dimensions, aspect_of]
  rw [if_neg h90, if_neg h45]
  refine lt_of_le_of_lt (min_le_right _ _) ?_
  rw [hc, hs]
  apply div_neg_of_neg_of_pos
  · linarith
  · norm_num

/-- C4 (amended): both components returned by the inverse mapping are
non-negative for non-negative rotated extents whenever either no known
dimension is supplied or both known dimensions are supplied and positive;
with exactly one known dimension (or a degenerate zero known dimension) the
derived component can be negative when the rotated box is too small for the
fixed dimension. -/
theorem original_dimensions_nonneg (rw' rh' angle : ℝ) (cw ch : Option ℝ)
    (hrw : 0 ≤ rw') (hrh : 0 ≤ rh')
    (hk : (cw = none ∧ ch = none) ∨
      (∃ w h : ℝ, cw = some w ∧ ch = some h ∧ 0 < w ∧ 0 < h)) :
    0 ≤ (get_original_dimensions rw' rh' angle cw ch).1 ∧
    0 ≤ (get_original_dimensions rw' rh' angle cw ch).2 := by
  rcases hk with ⟨hcw, hch⟩ | ⟨w, h, hcw, hch, hw, hh⟩
  · subst hcw; subst hch
    simp only [get_original_dimensions, aspect_of]
    by_cases h90 : fmod angle 90 = 0
    · by_cases h180 : fmod angle 180 = 0
      · rw [if_pos h90, if_pos h180]
        exact ⟨hrw, hrh⟩
      · rw [if_pos h90, if_neg h180]
        exact ⟨hrh, hrw⟩
    · by_cases h45 : Real.cos (2 * radians_angle angle) = 0
      · rw [if_neg h90, if_pos h45]
        have hb : 0 ≤ Real.sqrt 2 * min rw' rh' / 2 :=
          div_nonneg (mul_nonneg (Real.sqrt_nonneg 2) (le_min hrw hrh)) (by norm_num)
        exact ⟨hb, hb⟩
      · rw [if_neg h90, if_neg h45]
        exact ⟨abs_nonneg _, div_nonneg (abs_nonneg _) (abs_nonneg _)⟩
  · subst hcw; subst hch
    have hh' : h ≠ 0 := ne_of_gt hh
    have hr : 0 < w / h := div_pos hw hh
    have hr0 : ¬ (w / h = 0) := ne_of_gt hr
    have haspect : aspect_of (some w) (some h) = some (Aspect.val (w / h) h) := by
      simp [aspect_of, hh']
    simp only [get_original_dimensions, haspect]
    by_cases h90 : fmod angle 90 = 0
    · by_cases h180 : fmod angle 180 = 0
      · rw [if_pos h90, if_pos h180, if_neg hr0]
        exact nonneg_pair_axis hrw hrh hr
      · rw [if_pos h90, if_neg h180, if_neg hr0]
        exact nonneg_pair_axis hrh hrw hr
    · by_cases h45 : Real.cos (2 * radians_angle angle) = 0
      · rw [if_neg h90, if_pos h45, if_neg hr0]
        exact nonneg_pair_45 hrw hrh hr
      · rw [if_neg h90, if_neg h45, if_neg hr0]
        exact nonneg_pair_general hrw hrh hr (abs_nonneg _) (abs_nonneg _)

theorem original_dimensions_nonneg_witness :
    (0:ℝ) ≤ 10 ∧ (0:ℝ) ≤ 20 ∧
    (0 ≤ (get_original_dimensions 10 20 60 (some 100) (some 50)).1 ∧
     0 ≤ (get_original_dimensions 10 20 60 (some 100) (some 50)).2) :=
  ⟨by norm_num, by norm_num,
    original_dimensions_nonneg 10 20 60 (some 100) (some 50) (by norm_num) (by norm_num)
      (Or.inr ⟨100, 50, rfl, rfl, by norm_num, by norm_num⟩)⟩

/-- C3: at the angle `45 - 90/(π·10⁷)` degrees the value of `cos 2θ` is
positive but below 10⁻⁶, yet the inverse mapping does not route to the
45°-family branch — the branch guard tests `cos 2θ` for *exact* zero only —
and the general branch it takes instead divides by that near-zero `cos 2θ`
when computing the width. -/
theorem cos2_guard_only_exact_zero :
    ¬ fmod (45 - 90 / (π * 10 ^ 7)) 90 = 0 ∧
    ¬ Real.cos (2 * radians_angle (45 - 90 / (π * 10 ^ 7))) = 0 ∧
    |Real.cos (2 * radians_angle (45 - 90 / (π * 10 ^ 7)))| < 1 / 1000000 ∧
    (get_original_dimensions 1 1 (45 - 90 / (π * 10 ^ 7)) none none).1 =
      |(1 * abs_cos_d (45 - 90 / (π * 10 ^ 7)) - 1 * abs_sin_d (45 - 90 / (π * 10 ^ 7))) /
        Real.cos (2 * radians_angle (45 - 90 / (π * 10 ^ 7)))| := by
  set a : ℝ := 45 - 90 / (π * 10 ^ 7) with ha
  have hπ : (0:ℝ) < π := Real.pi_pos
  have hπ0 : π ≠ 0 := ne_of_gt hπ
  have hπ3 : (3:ℝ) < π := Real.pi_gt_three
  have hd0 : 0 < 90 / (π * 10 ^ 7) := by positivity
  have hd1 : 90 / (π * 10 ^ 7) < 1 := by
    rw [div_lt_one (by positivity)]
    nlinarith
  have ha0 : 0 < a := by rw [ha]; linarith
  have ha90 : a < 90 := by rw [ha]; linarith
  have hnorm : normalize_angle a = a := normalize_angle_eq_self ha0.le (by linarith)
  have h90 : ¬ fmod a 90 = 0 := by
    rw [fmod_eq_self (by norm_num) ha0.le ha90]
    exact ne_of_gt ha0
  have h2t : 2 * radians_angle a = π / 2 - 1 / 10 ^ 7 := by
    rw [radians_angle, hnorm, ha]
    field_simp
    ring
  have hcos : Real.cos (2 * radians_angle a) = Real.sin (1 / 10 ^ 7) := by
    rw [h2t, Real.cos_pi_div_two_sub]
  have hsp : 0 < Real.sin (1 / 10 ^ 7) :=
    Real.sin_pos_of_pos_of_lt_pi (by norm_num) (by nlinarith)
  have hsl : Real.sin (1 / 10 ^ 7) < 1 / 10 ^ 7 := Real.sin_lt (by norm_num)
  have h45 : ¬ Real.cos (2 * radians_angle a) = 0 := by
    rw [hcos]
    exact ne_of_gt hsp
  refine ⟨h90, h45, ?_, ?_⟩
  · rw [hcos, abs_of_pos hsp]
    calc Real.sin (1 / 10 ^ 7) < 1 / 10 ^ 7 := hsl
      _ < 1 / 1000000 := by norm_num
  · simp only [get_original_dimensions, aspect_of]
    rw [if_neg h90, if_neg h45]
